import Mathlib

/-!
Verification development for the changelog-cli repository ("InstaLog").

The definitions below are a shallow embedding of the JavaScript sources:
  * `src/changelog.js`   — commit classification and the two Markdown renderers,
  * `src/db/setup.js`    — the JSON-file store read path,
  * `src/db/repositories.js` — `saveRepository` / `getRecentRepositories`,
  * `src/db/history.js`  — `saveChangelogGeneration` / `getDaysSinceLastChangelog`,
  * `src/db/commits.js`  — `getNewCommitsSinceLastChangelog`.

Modelling conventions:
  * JS strings are modelled as Lean `String`; all manipulation is done on the
    underlying `List Char` so that everything reduces in the kernel.  JS
    `toLowerCase`/`toUpperCase` are modelled on the ASCII range (commit type
    keywords and hashes are ASCII).
  * Timestamps (`lastUsed`, `generatedAt`, `now`) are modelled as natural
    numbers (milliseconds since the epoch); `new Date(iso).getTime()` is an
    order isomorphism onto these.
  * `Array.prototype.sort` with a numeric comparator is a stable sort; it is
    modelled by `List.insertionSort`, which is stable with the corresponding
    relation.
  * Network fetches and file I/O are factored out: each function takes the
    fetched/parsed value as an argument, and writing the store is modelled as
    returning the new store value.
-/

namespace ChangelogCLI

/-! ### String helpers modelling JS string primitives -/

/-- JS `\w` character class: `[A-Za-z0-9_]`. -/
def isWordChar (c : Char) : Bool := c.isAlphanum || c = '_'

/-- JS `String.prototype.toLowerCase`, restricted to ASCII. -/
def jsToLower (s : String) : String := ⟨s.data.map Char.toLower⟩

/-- JS `String.prototype.startsWith`. -/
def strStartsWith (s pre : String) : Bool := pre.data.isPrefixOf s.data

/-- JS `String.prototype.substring(0, n)` (clamps when the string is shorter). -/
def takeChars (n : Nat) (s : String) : String := ⟨s.data.take n⟩

/-- JS `\s` character class, restricted to ASCII whitespace. -/
def isJsSpace (c : Char) : Bool :=
  c = ' ' || c = '\t' || c = '\n' || c = '\r' || c = '\x0b' || c = '\x0c'

/-- Embeds `new Date(d).toISOString().split('T')[0]` for a UTC ISO-8601
timestamp `d` as delivered by the GitHub API: the date part before `T`. -/
def dateOnly (s : String) : String := ⟨s.data.takeWhile (fun c => c ≠ 'T')⟩

/-- The `forEach { changelog += ... }` accumulation loops: concatenation of a
rendering of each element, in order.  (String concatenation is associative,
so the left-fold accumulation of the source equals this right fold.) -/
def concatMap (f : α → String) : List α → String
  | [] => ""
  | a :: as => f a ++ concatMap f as

/-! ### Commits

A GitHub API commit record `{sha, commit: {message, author: {name, date}}}`
is flattened to the four fields the program reads. -/

structure Commit where
  sha : String
  message : String
  author : String
  date : String
deriving DecidableEq

/-! ### Classifier (`groupCommitsByType` in `src/changelog.js`)

The type tag comes from `message.match(/^(\w+)(\([^)]+\))?:/)`.  The regex is
anchored at the start of the whole message (no `m` flag).  Backtracking never
helps it: shortening the greedy `\w+` leaves a word character next, which can
start neither `\(` nor `:`, and `[^)]+` excludes `)`, so its greedy run is
exactly the segment before the first `)`.  Hence the regex is equivalent to
the deterministic parser below. -/

/-- The `[^)]` character class. -/
def notRParen (c : Char) : Bool := c ≠ ')'

/-- Capture group 1 of `^(\w+)(\([^)]+\))?:` when the regex matches, else
`none`. -/
def convCommitType? (msg : String) : Option String :=
  if (msg.data.takeWhile isWordChar).isEmpty then none
  else
    match msg.data.dropWhile isWordChar with
    | ':' :: _ => some ⟨msg.data.takeWhile isWordChar⟩
    | '(' :: r2 =>
      match r2.takeWhile notRParen, r2.dropWhile notRParen with
      | _ :: _, ')' :: ':' :: _ => some ⟨msg.data.takeWhile isWordChar⟩
      | _, _ => none
    | _ => none

/-- The derived type tag: capture group 1 on a match, `'other'` otherwise
(`let type = 'other'; const match = ...; if (match) type = match[1];`). -/
def deriveType (msg : String) : String := (convCommitType? msg).getD "other"

/-- Appends `c` to the group keyed `t`, or adds a new group at the end
(`if (!types[type]) types[type] = []; types[type].push(commit);`). -/
def insertGroup : List (String × List Commit) → String → Commit → List (String × List Commit)
  | [], t, c => [(t, [c])]
  | (k, cs) :: rest, t, c =>
    if k = t then (k, cs ++ [c]) :: rest else (k, cs) :: insertGroup rest t c

/-- Whether a JS object property key is an array-index key (the canonical
decimal form of an integer in `[0, 2^32 - 1)`).  `Object.keys` lists such keys
first, in ascending numeric order. -/
def isArrayIndexKey (s : String) : Bool :=
  !s.data.isEmpty && s.data.all (fun c => c.isDigit) &&
    (s = "0" || s.data.head? ≠ some '0') && (s.toNat?.getD 0) < 4294967295

/-- Numeric value of an array-index key. -/
def keyNum (s : String) : Nat := s.toNat?.getD 0

/-- `Object.keys` enumeration order applied to a property list built in
insertion order: array-index keys ascending numerically, then the remaining
keys in insertion order. -/
def orderKeysJS (l : List (String × List Commit)) : List (String × List Commit) :=
  List.insertionSort (fun a b => keyNum a.1 ≤ keyNum b.1)
      (l.filter (fun g => isArrayIndexKey g.1))
    ++ l.filter (fun g => !isArrayIndexKey g.1)

/-- The property list of the object `types`, in insertion order. -/
def buildGroups (commits : List Commit) : List (String × List Commit) :=
  commits.foldl (fun acc c => insertGroup acc (deriveType c.message) c) []

/-- `groupCommitsByType(commits)`: the groups of the object `types`, in the
order `Object.keys` enumerates them. -/
def groupCommitsByType (commits : List Commit) : List (String × List Commit) :=
  orderKeysJS (buildGroups commits)

/-- `formatCommitType(type)`: the fixed display-name table, falling back to
`type.charAt(0).toUpperCase() + type.slice(1)`. -/
def formatCommitType (type : String) : String :=
  if type = "feat" then "Features"
  else if type = "fix" then "Bug Fixes"
  else if type = "docs" then "Documentation"
  else if type = "style" then "Style Improvements"
  else if type = "refactor" then "Code Refactoring"
  else if type = "perf" then "Performance Improvements"
  else if type = "test" then "Tests"
  else if type = "build" then "Build System"
  else if type = "ci" then "CI/CD"
  else if type = "chore" then "Chores"
  else if type = "other" then "Other Changes"
  else match type.data with
    | [] => ""
    | c :: rest => ⟨c.toUpper :: rest⟩

/-! ### Internal renderer (`generateInternalChangelog`) -/

/-- One internal-layout list entry:
`- **${sha.substring(0,7)}** ${message} (${author}, ${date})\n`. -/
def renderInternalCommit (c : Commit) : String :=
  "- **" ++ takeChars 7 c.sha ++ "** " ++ c.message ++ " (" ++ c.author ++ ", "
    ++ dateOnly c.date ++ ")\n"

/-- One internal-layout `##` section for a commit-type group. -/
def renderTypeSection (g : String × List Commit) : String :=
  "## " ++ formatCommitType g.1 ++ "\n\n" ++ concatMap renderInternalCommit g.2 ++ "\n"

/-- `generateInternalChangelog(repoName, commits, dateRange)`. -/
def generateInternalChangelog (repoName : String) (commits : List Commit)
    (dateRange : String) : String :=
  "# Changelog: " ++ repoName ++ "\n\n" ++ "**Date Range:** " ++ dateRange ++ "\n\n"
    ++ concatMap renderTypeSection (groupCommitsByType commits)

/-! ### External renderer (`generateExternalChangelog`)

The section-heading literals are embedded byte-for-byte as the source file
stores them (the file holds a double-encoded rendering of the original emoji;
the exact characters are irrelevant to every theorem below). -/

def featHeading : String := "## âœ¨ New Features\n\n"
def breakingHeading : String := "## âš ï¸ Breaking Changes\n\n"
def fixHeading : String := "## ðŸ› Bug Fixes\n\n"
def perfHeading : String := "## âš¡ Performance Improvements\n\n"

/-- `m.toLowerCase().startsWith(keyword)`. -/
def msgStarts (keyword : String) (m : String) : Bool := strStartsWith (jsToLower m) keyword

/-- `commit.commit.message.toLowerCase().startsWith('feat')`. -/
def isFeat (c : Commit) : Bool := msgStarts "feat" c.message

/-- `commit.commit.message.toLowerCase().startsWith('fix')`. -/
def isFix (c : Commit) : Bool := msgStarts "fix" c.message

/-- `commit.commit.message.toLowerCase().startsWith('perf')`. -/
def isPerf (c : Commit) : Bool := msgStarts "perf" c.message

/-- `commit.commit.message.toLowerCase().startsWith('breaking')`. -/
def isBreaking (c : Commit) : Bool := msgStarts "breaking" c.message

/-- The message-level `userRelevantCommits` test. -/
def msgUserRelevant (m : String) : Bool :=
  msgStarts "feat" m || msgStarts "fix" m || msgStarts "perf" m || msgStarts "breaking" m

/-- The `userRelevantCommits` filter predicate. -/
def isUserRelevant (c : Commit) : Bool := msgUserRelevant c.message

/-- `message.replace(/^KEYWORD(\([^)]+\))?:\s*/i, '')` for a lower-case ASCII
`keyword` (`feat`, `fix`, `perf`, `breaking`): strips the case-insensitive
keyword, an optional parenthesised scope, the colon, and following whitespace;
leaves the message unchanged when the pattern does not match. -/
def stripTypePrefix (keyword : String) (msg : String) : String :=
  if (msg.data.take keyword.data.length).map Char.toLower = keyword.data then
    match msg.data.drop keyword.data.length with
    | ':' :: rest => ⟨rest.dropWhile isJsSpace⟩
    | '(' :: r2 =>
      match r2.takeWhile notRParen, r2.dropWhile notRParen with
      | _ :: _, ')' :: ':' :: rest => ⟨rest.dropWhile isJsSpace⟩
      | _, _ => msg
    | _ => msg
  else msg

/-- One external-layout list entry, from the message. -/
def externalEntryOf (keyword : String) (m : String) : String :=
  "- " ++ stripTypePrefix keyword m ++ "\n"

/-- One external-layout list entry. -/
def renderExternalEntry (keyword : String) (c : Commit) : String :=
  externalEntryOf keyword c.message

/-- `generateExternalChangelog(repoName, commits, dateRange)`, transcribed
from the source: filter to user-relevant commits, re-filter into the four
buckets, then emit the non-empty sections in the fixed source order. -/
def generateExternalChangelog (repoName : String) (commits : List Commit)
    (dateRange : String) : String :=
  let userRelevantCommits := commits.filter isUserRelevant
  let features := userRelevantCommits.filter isFeat
  let fixes := userRelevantCommits.filter isFix
  let performance := userRelevantCommits.filter isPerf
  let breaking := userRelevantCommits.filter isBreaking
  "# " ++ repoName ++ " - Changelog\n\n" ++ "**" ++ dateRange ++ "**\n\n"
    ++ (if features.length > 0 then
          featHeading ++ concatMap (renderExternalEntry "feat") features ++ "\n"
        else "")
    ++ (if breaking.length > 0 then
          breakingHeading ++ concatMap (renderExternalEntry "breaking") breaking ++ "\n"
        else "")
    ++ (if fixes.length > 0 then
          fixHeading ++ concatMap (renderExternalEntry "fix") fixes ++ "\n"
        else "")
    ++ (if performance.length > 0 then
          perfHeading ++ concatMap (renderExternalEntry "perf") performance ++ "\n"
        else "")

/-! ### Claim-side renderings of the spec text

These definitions follow the words of the spec/claims (not the source); they
exist to be compared with the source-derived definitions above. -/

/-- Modelled from the spec text of C1: capture group 1 "lower-cased" is the
type; absence of a match yields `'other'`. -/
def deriveTypeSpecLowered (msg : String) : String :=
  ((convCommitType? msg).map jsToLower).getD "other"

/-- Modelled from the spec text of C2: strip "the conventional-commit prefix
(`type(scope):` or `type:`, case-insensitive)" from a message — i.e. remove a
leading `\w+`, an optional parenthesised scope, the colon and following
whitespace, for an arbitrary leading word. -/
def stripConvPrefixSpec (msg : String) : String :=
  if (msg.data.takeWhile isWordChar).isEmpty then msg
  else
    match msg.data.dropWhile isWordChar with
    | ':' :: rest => ⟨rest.dropWhile isJsSpace⟩
    | '(' :: r2 =>
      match r2.takeWhile notRParen, r2.dropWhile notRParen with
      | _ :: _, ')' :: ':' :: rest => ⟨rest.dropWhile isJsSpace⟩
      | _, _ => msg
    | _ => msg

/-- Modelled from the claim text of C2 as stated: the four buckets drawn
directly from the input, sections in the fixed order, present iff non-empty,
and every entry is the message with its generic conventional-commit prefix
stripped. -/
def externalChangelogClaim (repoName : String) (commits : List Commit)
    (dateRange : String) : String :=
  let features := commits.filter isFeat
  let fixes := commits.filter isFix
  let performance := commits.filter isPerf
  let breaking := commits.filter isBreaking
  "# " ++ repoName ++ " - Changelog\n\n" ++ "**" ++ dateRange ++ "**\n\n"
    ++ (if features.length > 0 then
          featHeading ++ concatMap (fun c => "- " ++ stripConvPrefixSpec c.message ++ "\n") features ++ "\n"
        else "")
    ++ (if breaking.length > 0 then
          breakingHeading ++ concatMap (fun c => "- " ++ stripConvPrefixSpec c.message ++ "\n") breaking ++ "\n"
        else "")
    ++ (if fixes.length > 0 then
          fixHeading ++ concatMap (fun c => "- " ++ stripConvPrefixSpec c.message ++ "\n") fixes ++ "\n"
        else "")
    ++ (if performance.length > 0 then
          perfHeading ++ concatMap (fun c => "- " ++ stripConvPrefixSpec c.message ++ "\n") performance ++ "\n"
        else "")

/-- The amended claim C2: identical to `externalChangelogClaim` except that an
entry strips only its own bucket keyword (`feat:`/`fix:`/`perf:`/`breaking:`,
optional scope, case-insensitive); a bucketed message without that exact
prefix is listed verbatim. -/
def externalChangelogAmended (repoName : String) (commits : List Commit)
    (dateRange : String) : String :=
  let features := commits.filter isFeat
  let fixes := commits.filter isFix
  let performance := commits.filter isPerf
  let breaking := commits.filter isBreaking
  "# " ++ repoName ++ " - Changelog\n\n" ++ "**" ++ dateRange ++ "**\n\n"
    ++ (if features.length > 0 then
          featHeading ++ concatMap (renderExternalEntry "feat") features ++ "\n"
        else "")
    ++ (if breaking.length > 0 then
          breakingHeading ++ concatMap (renderExternalEntry "breaking") breaking ++ "\n"
        else "")
    ++ (if fixes.length > 0 then
          fixHeading ++ concatMap (renderExternalEntry "fix") fixes ++ "\n"
        else "")
    ++ (if performance.length > 0 then
          perfHeading ++ concatMap (renderExternalEntry "perf") performance ++ "\n"
        else "")

/-! ### The generation pipeline entry (`generateChangelog`)

The network fetch and the LLM call are factored out: `commits` is the fetch
result, and `aiResult` is the outcome of `aiSummarizer.enhanceChangelog`
(`none` both when AI was unavailable/failed and when it returned null). -/

structure ChangelogOutput where
  content : String
  title : String
deriving DecidableEq

structure AIResult where
  content : String
  /-- `aiResult.title`; `none` models an absent property. -/
  title : Option String
deriving DecidableEq

/-- `aiResult.title || repoName + ' Changelog'`: JS `||` falls through on the
falsy values `undefined` and `''`. -/
def titleOrDefault (t : Option String) (repoName : String) : String :=
  match t with
  | some s => if s = "" then repoName ++ " Changelog" else s
  | none => repoName ++ " Changelog"

/-- `generateChangelog` from `src/changelog.js`, after the fetch: the
zero-commit short circuit, then the AI branch, then the standard renderers.
`repoName` and `dateRange` stand for the values the source derives from
`repoUrl` and `days`. -/
def generateChangelog (commits : List Commit) (repoName dateRange : String)
    (format : String) (useAI : Bool) (aiResult : Option AIResult) : ChangelogOutput :=
  if commits.length = 0 then
    ⟨"No commits found for the specified period.", "No Changes"⟩
  else
    match useAI, aiResult with
    | true, some r => ⟨r.content, titleOrDefault r.title repoName⟩
    | _, _ =>
      if format = "external" then
        ⟨generateExternalChangelog repoName commits dateRange, repoName ++ " Changelog"⟩
      else
        ⟨generateInternalChangelog repoName commits dateRange, repoName ++ " Changelog"⟩

/-! ### The typed store (`src/db/repositories.js`, `src/db/history.js`)

`readDB`/`writeDB` round-trips are modelled as pure state passing: each
operation takes the current store value and returns the new one.  ISO
timestamps are modelled as milliseconds (`Nat`); `new Date(x) - new Date(y)`
on them is plain subtraction. -/

structure Repo where
  url : String
  name : String
  lastUsed : Nat
deriving DecidableEq

structure HistoryEntry where
  repoUrl : String
  generatedAt : Nat
  startDate : String
  endDate : String
  /-- `lastCommitHash || null`; `none` models `null`. -/
  lastCommitHash : Option String
deriving DecidableEq

structure DB where
  repositories : List Repo
  history : List HistoryEntry
deriving DecidableEq

def emptyDB : DB := ⟨[], []⟩

/-- The comparator `(a, b) => new Date(b.lastUsed) - new Date(a.lastUsed)`:
`b` before `a` when `b.lastUsed` is larger, ties kept stable — descending by
`lastUsed`. -/
def repoLe (a b : Repo) : Prop := b.lastUsed ≤ a.lastUsed

instance : DecidableRel repoLe := fun a b => Nat.decLe b.lastUsed a.lastUsed

instance : IsTotal Repo repoLe := ⟨fun a b => Nat.le_total b.lastUsed a.lastUsed⟩

instance : IsTrans Repo repoLe := ⟨fun _ _ _ h₁ h₂ => Nat.le_trans h₂ h₁⟩

/-- `db.repositories.sort((a, b) => new Date(b.lastUsed) - new Date(a.lastUsed))`
(a stable sort, modelled by insertion sort). -/
def sortRepos (l : List Repo) : List Repo := List.insertionSort repoLe l

/-- `db.repositories[existingRepoIndex].lastUsed = <now>` after
`findIndex(repo => repo.url === url)`: update the first record with that URL. -/
def updateFirstRepo (url : String) (now : Nat) : List Repo → List Repo
  | [] => []
  | r :: rs =>
    if r.url = url then { r with lastUsed := now } :: rs
    else r :: updateFirstRepo url now rs

/-- `saveRepository(url, name)` from `src/db/repositories.js`, with the call
time `now` made explicit. -/
def saveRepository (db : DB) (url name : String) (now : Nat) : DB :=
  let repos :=
    if db.repositories.any (fun r => r.url = url) then
      updateFirstRepo url now db.repositories
    else
      db.repositories ++ [⟨url, name, now⟩]
  { db with repositories := sortRepos repos }

/-- `getRecentRepositories(limit)`. -/
def getRecentRepositories (db : DB) (limit : Nat) : List Repo :=
  (sortRepos db.repositories).take limit

/-- The comparator `(a, b) => new Date(b.generatedAt) - new Date(a.generatedAt)`:
descending by `generatedAt`, stable. -/
def histLe (a b : HistoryEntry) : Prop := b.generatedAt ≤ a.generatedAt

instance : DecidableRel histLe := fun a b => Nat.decLe b.generatedAt a.generatedAt

instance : IsTotal HistoryEntry histLe :=
  ⟨fun a b => Nat.le_total b.generatedAt a.generatedAt⟩

instance : IsTrans HistoryEntry histLe := ⟨fun _ _ _ h₁ h₂ => Nat.le_trans h₂ h₁⟩

def sortHistory (l : List HistoryEntry) : List HistoryEntry := List.insertionSort histLe l

/-- `saveChangelogGeneration(repoUrl, repoName, startDate, endDate,
lastCommitHash)`: `saveRepository` first, then append a history entry and sort
the history newest-first. -/
def saveChangelogGeneration (db : DB) (repoUrl repoName startDate endDate : String)
    (lastCommitHash : Option String) (now : Nat) : DB :=
  let db1 := saveRepository db repoUrl repoName now
  { db1 with
    history := sortHistory (db1.history ++ [⟨repoUrl, now, startDate, endDate, lastCommitHash⟩]) }

/-- `Math.ceil(a / b)` for integer `a` and positive integer `b`. -/
def ceilDiv (a : Int) (b : Int) : Int := -((-a).fdiv b)

/-- The millisecond count `1000 * 60 * 60 * 24`. -/
def msPerDay : Int := 86400000

structure LastRunInfo where
  days : Int
  lastDate : String
  lastCommitHash : Option String
deriving DecidableEq

/-- `getDaysSinceLastChangelog(repoUrl)` from `src/db/history.js`: filter the
history to the URL, sort newest-first, take `[0]`;
`days = Math.ceil((now - lastDate) / (1000*60*60*24))`. -/
def getDaysSinceLastChangelog (db : DB) (repoUrl : String) (now : Nat) :
    Option LastRunInfo :=
  match sortHistory (db.history.filter (fun e => e.repoUrl = repoUrl)) with
  | [] => none
  | e :: _ =>
    some ⟨ceilDiv ((now : Int) - (e.generatedAt : Int)) msPerDay, e.endDate, e.lastCommitHash⟩

/-- `getChangelogHistory(repoUrl, limit)`. -/
def getChangelogHistory (db : DB) (repoUrl : String) (limit : Nat) : List HistoryEntry :=
  (sortHistory (db.history.filter (fun e => e.repoUrl = repoUrl))).take limit

/-! ### `getNewCommitsSinceLastChangelog` (`src/db/commits.js`)

The GitHub page fetch is factored out as the argument `commits` (newest
first); `last` is the `getDaysSinceLastChangelog` result.  A fetch error takes
the `catch` path and is out of scope here. -/

structure NewCommitsResult where
  newCommits : Option Nat
  lastCommitHash : Option String
  message : String
deriving DecidableEq

/-- `Array.prototype.findIndex`, with `none` for `-1`. -/
def jsFindIndex (p : α → Bool) : List α → Option Nat
  | [] => none
  | a :: as => if p a then some 0 else (jsFindIndex p as).map (· + 1)

def noHashResult : NewCommitsResult :=
  ⟨none, none, "No previous changelog commit hash found"⟩

/-- `getNewCommitsSinceLastChangelog`: the sentinel when no prior hash is
recorded (`!lastChangelog || !lastChangelog.lastCommitHash`, where the empty
string is also falsy), the zero-commit early return, the linear scan
`commits.findIndex(c => c.sha.startsWith(hash))`, and the full-count fallback. -/
def getNewCommitsSinceLastChangelog (last : Option LastRunInfo)
    (commits : List Commit) : NewCommitsResult :=
  match last with
  | none => noHashResult
  | some info =>
    match info.lastCommitHash with
    | none => noHashResult
    | some h =>
      if h = "" then noHashResult
      else
        match commits with
        | [] => ⟨some 0, some h, "No commits found"⟩
        | c0 :: _ =>
          match jsFindIndex (fun c => strStartsWith c.sha h) commits with
          | some i =>
            ⟨some i, some c0.sha, "Found " ++ toString i ++ " new commits since last changelog"⟩
          | none =>
            ⟨some commits.length, some c0.sha, "Previous commit not found in recent history"⟩

/-! ### The JSON-file read path (`readDB` in `src/db/setup.js`)

To state what `readDB` does on corrupted backing files, JS values produced by
`JSON.parse` are modelled by `Json` below.  An array value carries its expando
property list (`props`) because JS property assignment on an array works like
on any object; assigning a property on a primitive (`number`/`string`/
`boolean`) is a silent no-op in non-strict code such as this module, and
reading a property of `null` throws a `TypeError` (which `readDB` catches). -/

inductive Json where
  | null : Json
  | bool : Bool → Json
  | num : Int → Json
  | str : String → Json
  | arr : List Json → List (String × Json) → Json
  | obj : List (String × Json) → Json

/-- Assoc-list lookup (keys coming out of `JSON.parse` are unique). -/
def lookupProp (props : List (String × Json)) (k : String) : Option Json :=
  match props with
  | [] => none
  | (k', v) :: rest => if k' = k then some v else lookupProp rest k

/-- Property update: overwrite in place, or add at the end. -/
def setProp (props : List (String × Json)) (k : String) (v : Json) :
    List (String × Json) :=
  match props with
  | [] => [(k, v)]
  | (k', v') :: rest => if k' = k then (k, v) :: rest else (k', v') :: setProp rest k v

/-- Property read `j.k` on a non-null value; `none` is `undefined`. -/
def jsGetField : Json → String → Option Json
  | .obj props, k => lookupProp props k
  | .arr _ props, k => lookupProp props k
  | _, _ => none

/-- Property write `j.k = v`; a no-op on primitives (non-strict mode). -/
def jsSetField : Json → String → Json → Json
  | .obj props, k, v => .obj (setProp props k v)
  | .arr elems props, k, v => .arr elems (setProp props k v)
  | j, _, _ => j

/-- JS truthiness of a possibly-`undefined` value (`NaN` not modelled). -/
def jsTruthy : Option Json → Bool
  | none => false
  | some .null => false
  | some (.bool b) => b
  | some (.num n) => n ≠ 0
  | some (.str s) => s ≠ ""
  | some (.arr _ _) => true
  | some (.obj _) => true

/-- `Array.isArray(x)` (false on `undefined`). -/
def jsIsArray : Option Json → Bool
  | some (.arr _ _) => true
  | _ => false

/-- What the backing file yields: absent, a read/parse failure, or a parsed
JSON value. -/
inductive FileState where
  | missing : FileState
  | invalidJson : FileState
  | parsed : Json → FileState

/-- The structure `readDB` falls back to. -/
def defaultDBJson : Json := .obj [("repositories", .arr [] []), ("history", .arr [] [])]

/-- `if (!parsedData.k || !Array.isArray(parsedData.k)) parsedData.k = []`. -/
def fixArrayField (j : Json) (k : String) : Json :=
  if !jsTruthy (jsGetField j k) || !jsIsArray (jsGetField j k) then
    jsSetField j k (.arr [] [])
  else j

/-- `readDB()` from `src/db/setup.js`.  A missing file returns the fresh
structure; a `JSON.parse` failure lands in the `catch` and returns it; a
parsed `null` throws on the first property read, also landing in the `catch`;
any other parsed value has its two fields checked and (where possible)
repaired, and is returned. -/
def readDB : FileState → Json
  | .missing => defaultDBJson
  | .invalidJson => defaultDBJson
  | .parsed .null => defaultDBJson
  | .parsed j => fixArrayField (fixArrayField j "repositories") "history"

/-! ### Apparatus for the store-invariant claims -/

/-- A sequence of `saveRepository` calls `(url, name, time)` applied to the
empty store. -/
def applySaves (calls : List (String × String × Nat)) : DB :=
  calls.foldl (fun db c => saveRepository db c.1 c.2.1 c.2.2) emptyDB

/-- The time of the most recent call in `calls` for `url`, if any. -/
def lastSaveTime (url : String) (calls : List (String × String × Nat)) : Option Nat :=
  ((calls.filter (fun c => c.1 = url)).map (fun c => c.2.2)).getLast?

/-- The invariant of the repository table maintained by `saveRepository`:
one record per URL ever saved, `lastUsed` from the most recent call, sorted
descending. -/
def RepoInv (calls : List (String × String × Nat)) (repos : List Repo) : Prop :=
  (∀ url, repos.countP (fun r => r.url = url) =
    if calls.any (fun c => c.1 = url) then 1 else 0) ∧
  (∀ r ∈ repos, lastSaveTime r.url calls = some r.lastUsed) ∧
  repos.Sorted repoLe

/-! ## Helper lemmas -/

lemma takeWhile_word_colon (w t : List Char) (hall : ∀ c ∈ w, isWordChar c = true) :
    List.takeWhile isWordChar (w ++ ':' :: t) = w := by
  rw [List.takeWhile_append_of_pos hall]
  simp [List.takeWhile, isWordChar]

lemma dropWhile_word_colon (w t : List Char) (hall : ∀ c ∈ w, isWordChar c = true) :
    List.dropWhile isWordChar (w ++ ':' :: t) = ':' :: t := by
  rw [List.dropWhile_append_of_pos hall]
  simp [List.dropWhile, isWordChar]

lemma takeWhile_word_lparen (w t : List Char) (hall : ∀ c ∈ w, isWordChar c = true) :
    List.takeWhile isWordChar (w ++ '(' :: t) = w := by
  rw [List.takeWhile_append_of_pos hall]
  simp [List.takeWhile, isWordChar]

lemma dropWhile_word_lparen (w t : List Char) (hall : ∀ c ∈ w, isWordChar c = true) :
    List.dropWhile isWordChar (w ++ '(' :: t) = '(' :: t := by
  rw [List.dropWhile_append_of_pos hall]
  simp [List.dropWhile, isWordChar]

lemma convCommitType?_colon (w t : List Char) (hw : w ≠ [])
    (hall : ∀ c ∈ w, isWordChar c = true) :
    convCommitType? ⟨w ++ ':' :: t⟩ = some ⟨w⟩ := by
  simp [convCommitType?, takeWhile_word_colon w t hall, dropWhile_word_colon w t hall, hw]

lemma convCommitType?_scope (w s t : List Char) (hw : w ≠ [])
    (hall : ∀ c ∈ w, isWordChar c = true) (hs : s ≠ [])
    (hsp : ∀ c ∈ s, c ≠ ')') :
    convCommitType? ⟨w ++ '(' :: (s ++ ')' :: ':' :: t)⟩ = some ⟨w⟩ := by
  have hsp' : ∀ c ∈ s, notRParen c = true := by
    intro c hc; simp [notRParen, hsp c hc]
  obtain ⟨s0, s', rfl⟩ := List.exists_cons_of_ne_nil hs
  have hts : List.takeWhile notRParen (s0 :: (s' ++ ')' :: ':' :: t)) = s0 :: s' := by
    rw [List.takeWhile_cons_of_pos (hsp' s0 (by simp))]
    rw [List.takeWhile_append_of_pos (fun c hc => hsp' c (by simp [hc]))]
    simp [List.takeWhile, notRParen]
  have hds : List.dropWhile notRParen (s0 :: (s' ++ ')' :: ':' :: t)) = ')' :: ':' :: t := by
    rw [List.dropWhile_cons_of_pos (hsp' s0 (by simp))]
    rw [List.dropWhile_append_of_pos (fun c hc => hsp' c (by simp [hc]))]
    simp [List.dropWhile, notRParen]
  simp [convCommitType?, takeWhile_word_lparen w _ hall, dropWhile_word_lparen w _ hall,
    hts, hds, hw]

lemma convCommitType?_inv (msg w : String) (h : convCommitType? msg = some w) :
    (∃ t : List Char, msg.data = w.data ++ ':' :: t) ∨
    (∃ s t : List Char, msg.data = w.data ++ '(' :: (s ++ ')' :: ':' :: t)) := by
  have hsplit := List.takeWhile_append_dropWhile isWordChar msg.data
  unfold convCommitType? at h
  split at h
  · exact absurd h (by simp)
  · split at h
    · next tail heq =>
      injection h with hw
      subst hw
      left
      refine ⟨tail, ?_⟩
      show msg.data = List.takeWhile isWordChar msg.data ++ ':' :: tail
      rw [← heq]
      exact hsplit.symm
    · next r2 heq =>
      split at h
      · next s0 s' rest hts hds =>
        injection h with hw
        subst hw
        right
        have hr2 := List.takeWhile_append_dropWhile notRParen r2
        refine ⟨s0 :: s', rest, ?_⟩
        show msg.data =
          List.takeWhile isWordChar msg.data ++ '(' :: (s0 :: s' ++ ')' :: ':' :: rest)
        rw [show ((s0 :: s') ++ ')' :: ':' :: rest : List Char)
            = List.takeWhile notRParen r2 ++ List.dropWhile notRParen r2 by rw [hts, hds]]
        rw [hr2, ← heq]
        exact hsplit.symm
      · exact absurd h (by simp)
    · exact absurd h (by simp)

/-! ## Claim C1 -/

/-- C1 counterexample: the claim states that the derived type tag is capture
group 1 of `^(\w+)(\(scope\))?:` lower-cased, so that `"Feat: x"` would derive
the type `"feat"`.  The code does not lower-case: `groupCommitsByType` files
the commit under the key `"Feat"`, and `deriveType` disagrees with the
spec-side lower-cased variant. -/
theorem C1_counterexample :
    deriveType "Feat: x" = "Feat" ∧
    ¬ deriveType "Feat: x" = "feat" ∧
    deriveTypeSpecLowered "Feat: x" = "feat" ∧
    (groupCommitsByType [⟨"h1", "Feat: x", "A", "d"⟩]).map Prod.fst = ["Feat"] := by
  refine ⟨rfl, by decide, rfl, rfl⟩

/-- C1 (amended): the Classifier derives the type tag by matching the commit
message against `^(\w+)(\([^)]+\))?:`; capture group 1 verbatim (with its
original case, no lower-casing) is the type, and a message that does not
match derives `other`.  Clause 1: a message `w ++ ":" ++ rest` with a
non-empty word `w` derives exactly `w`; clause 2: the same with a
parenthesised scope; clause 3: every message either derives `other` or
literally begins with its derived type followed by `:` or `(scope):`. -/
theorem C1_classifier_type_verbatim :
    (∀ w rest : String, w ≠ "" → (∀ c ∈ w.data, isWordChar c = true) →
      deriveType (w ++ ":" ++ rest) = w) ∧
    (∀ w scope rest : String, w ≠ "" → (∀ c ∈ w.data, isWordChar c = true) →
      scope ≠ "" → (∀ c ∈ scope.data, c ≠ ')') →
      deriveType (w ++ "(" ++ scope ++ "):" ++ rest) = w) ∧
    (∀ msg : String, deriveType msg = "other" ∨
      (∃ rest : List Char, msg.data = (deriveType msg).data ++ ':' :: rest) ∨
      (∃ scope rest : List Char,
        msg.data = (deriveType msg).data ++ '(' :: (scope ++ ')' :: ':' :: rest))) := by
  refine ⟨?_, ?_, ?_⟩
  · intro w rest hw hall
    obtain ⟨wd⟩ := w
    obtain ⟨rd⟩ := rest
    have hwd : wd ≠ [] := fun h => hw (by simp [h])
    have harr : (wd ++ [':']) ++ rd = wd ++ ':' :: rd := by simp
    show deriveType ⟨(wd ++ [':']) ++ rd⟩ = ⟨wd⟩
    rw [harr, deriveType, convCommitType?_colon wd rd hwd hall]
    rfl
  · intro w scope rest hw hall hs hsp
    obtain ⟨wd⟩ := w
    obtain ⟨sd⟩ := scope
    obtain ⟨rd⟩ := rest
    have hwd : wd ≠ [] := fun h => hw (by simp [h])
    have hsd : sd ≠ [] := fun h => hs (by simp [h])
    have harr : (((wd ++ ['(']) ++ sd) ++ [')', ':']) ++ rd =
        wd ++ '(' :: (sd ++ ')' :: ':' :: rd) := by simp
    show deriveType ⟨(((wd ++ ['(']) ++ sd) ++ [')', ':']) ++ rd⟩ = ⟨wd⟩
    rw [harr, deriveType, convCommitType?_scope wd sd rd hwd hall hsd hsp]
    rfl
  · intro msg
    rcases h : convCommitType? msg with _ | w
    · left
      rw [deriveType, h]
      rfl
    · right
      have hd : deriveType msg = w := by rw [deriveType, h]; rfl
      rw [hd]
      exact convCommitType?_inv msg w h

/-- C1 witness: the amended theorem applied at the concrete word `"Fix"`. -/
theorem C1_witness :
    ("Fix" : String) ≠ "" ∧ deriveType ("Fix" ++ ":" ++ " y") = "Fix" :=
  ⟨by decide, C1_classifier_type_verbatim.1 "Fix" " y" (by decide) (by decide)⟩

/-! ## Claim C5 -/

/-- C5: with zero fetched commits, `generateChangelog` short-circuits before
either layout and before the AI branch, returning exactly the placeholder
content and title, for every format and every AI configuration. -/
theorem C5_zero_commits_short_circuit (repoName dateRange format : String)
    (useAI : Bool) (aiResult : Option AIResult) :
    generateChangelog [] repoName dateRange format useAI aiResult =
      ⟨"No commits found for the specified period.", "No Changes"⟩ := rfl

/-! ## Claim C8 -/

lemma lookupProp_setProp_same (props : List (String × Json)) (k : String) (v : Json) :
    lookupProp (setProp props k v) k = some v := by
  induction props with
  | nil => simp [setProp, lookupProp]
  | cons p rest ih =>
    obtain ⟨pk, pv⟩ := p
    by_cases h : pk = k
    · simp [setProp, lookupProp, h]
    · simp [setProp, lookupProp, h, ih]

lemma lookupProp_setProp_other (props : List (String × Json)) (k k' : String) (v : Json)
    (h : k' ≠ k) : lookupProp (setProp props k v) k' = lookupProp props k' := by
  have h2 : ¬ (k = k') := fun hh => h hh.symm
  induction props with
  | nil => simp [setProp, lookupProp, h2]
  | cons p rest ih =>
    obtain ⟨pk, pv⟩ := p
    by_cases hp : pk = k
    · subst hp
      simp [setProp, lookupProp, h2]
    · simp [setProp, lookupProp, hp, ih]

lemma fixArrayField_obj_isArray (props : List (String × Json)) (k : String) :
    jsIsArray (jsGetField (fixArrayField (.obj props) k) k) = true := by
  unfold fixArrayField
  split
  · simp [jsSetField, jsGetField, lookupProp_setProp_same, jsIsArray]
  · next hcond =>
    rcases h : jsGetField (.obj props) k with _ | j
    · rw [h] at hcond
      simp [jsTruthy] at hcond
    · rcases j with _ | b | n | s | ⟨el, pr⟩ | pr <;>
        simp_all [jsTruthy, jsIsArray]

lemma fixArrayField_obj_repair (props : List (String × Json)) (k : String)
    (h : jsIsArray (jsGetField (.obj props) k) = false) :
    jsGetField (fixArrayField (.obj props) k) k = some (.arr [] []) := by
  unfold fixArrayField
  split
  · simp [jsSetField, jsGetField, lookupProp_setProp_same]
  · next hcond =>
    exfalso
    apply hcond
    simp [h]

lemma fixArrayField_obj_other (props : List (String × Json)) (k k' : String)
    (h : k' ≠ k) :
    jsGetField (fixArrayField (.obj props) k) k' = jsGetField (.obj props) k' := by
  unfold fixArrayField
  split
  · simp [jsSetField, jsGetField, lookupProp_setProp_other _ _ _ _ h]
  · rfl

lemma fixArrayField_obj_preserve (props : List (String × Json)) (k : String)
    (h : jsIsArray (jsGetField (.obj props) k) = true) :
    fixArrayField (.obj props) k = .obj props := by
  unfold fixArrayField
  split
  · next hcond =>
    rcases hj : jsGetField (.obj props) k with _ | j
    · rw [hj] at h
      simp [jsIsArray] at h
    · rcases j <;> simp_all [jsTruthy, jsIsArray]
  · rfl

lemma fixArrayField_obj_shape (props : List (String × Json)) (k : String) :
    ∃ props', fixArrayField (.obj props) k = .obj props' := by
  unfold fixArrayField
  split
  · exact ⟨setProp props k (.arr [] []), rfl⟩
  · exact ⟨props, rfl⟩

/-- C8 counterexample: a backing file containing the JSON document `5` parses
fine; the two repair assignments are silent no-ops on a number, and `readDB`
returns the number `5`, whose `repositories` lookup is `undefined` rather
than the empty array the claim promises. -/
theorem C8_counterexample :
    readDB (.parsed (.num 5)) = .num 5 ∧
    jsGetField (readDB (.parsed (.num 5))) "repositories" = none ∧
    readDB (.parsed (.num 5)) ≠ defaultDBJson := by
  refine ⟨rfl, rfl, ?_⟩
  intro h
  exact Json.noConfusion h

/-- C8 (amended): the read path never throws, and for every backing file that
is missing, unparseable, parses to `null`, or parses to a JSON object, each
of the two fields `repositories` and `history` of the result is the empty
array exactly when it was missing or not an array (the degenerate cases yield
the fresh empty structure wholesale), a field that already was an array is
preserved verbatim, and every other object field is left unchanged.  (A file
parsing to a non-object, non-null JSON value — e.g. the number `5` — is
returned as is, because the repair assignments are silent no-ops on
primitives.) -/
theorem C8_read_never_throws_normalizes :
    readDB .missing = defaultDBJson ∧
    readDB .invalidJson = defaultDBJson ∧
    readDB (.parsed .null) = defaultDBJson ∧
    (∀ props : List (String × Json),
      (jsIsArray (jsGetField (.obj props) "repositories") = false →
        jsGetField (readDB (.parsed (.obj props))) "repositories" =
          some (.arr [] [])) ∧
      (jsIsArray (jsGetField (.obj props) "repositories") = true →
        jsGetField (readDB (.parsed (.obj props))) "repositories" =
          jsGetField (.obj props) "repositories") ∧
      (jsIsArray (jsGetField (.obj props) "history") = false →
        jsGetField (readDB (.parsed (.obj props))) "history" = some (.arr [] [])) ∧
      (jsIsArray (jsGetField (.obj props) "history") = true →
        jsGetField (readDB (.parsed (.obj props))) "history" =
          jsGetField (.obj props) "history") ∧
      (∀ k, k ≠ "repositories" → k ≠ "history" →
        jsGetField (readDB (.parsed (.obj props))) k = jsGetField (.obj props) k)) := by
  refine ⟨rfl, rfl, rfl, ?_⟩
  intro props
  have hread : readDB (.parsed (.obj props)) =
      fixArrayField (fixArrayField (.obj props) "repositories") "history" := rfl
  obtain ⟨props1, hp1⟩ := fixArrayField_obj_shape props "repositories"
  have hrh : ("repositories" : String) ≠ "history" := by decide
  have hhr : ("history" : String) ≠ "repositories" := by decide
  have hhist1 : jsGetField (.obj props1) "history" = jsGetField (.obj props) "history" := by
    rw [← hp1, fixArrayField_obj_other props "repositories" "history" hhr]
  refine ⟨?_, ?_, ?_, ?_, ?_⟩
  · intro hna
    rw [hread, hp1, fixArrayField_obj_other props1 "history" "repositories" hrh, ← hp1]
    exact fixArrayField_obj_repair props "repositories" hna
  · intro harr
    rw [hread, fixArrayField_obj_preserve props "repositories" harr,
      fixArrayField_obj_other props "history" "repositories" hrh]
  · intro hna
    rw [hread, hp1]
    exact fixArrayField_obj_repair props1 "history" (by rw [hhist1]; exact hna)
  · intro harr
    rw [hread, hp1, fixArrayField_obj_preserve props1 "history" (by rw [hhist1]; exact harr),
      hhist1]
  · intro k hk1 hk2
    rw [hread, hp1, fixArrayField_obj_other props1 "history" k hk2, ← hp1,
      fixArrayField_obj_other props "repositories" k hk1]

/-- C8 witness: the spec scenario — a file holding
`\x7b"repositories": "not-an-array"\x7d` reads back with both fields equal to
the empty array and no exception; the whole result is exactly the fresh
empty structure, and an unrelated field on a larger file survives. -/
theorem C8_witness :
    jsGetField (readDB (.parsed
      (.obj [("repositories", Json.str "not-an-array")]))) "repositories" =
      some (Json.arr [] []) ∧
    jsGetField (readDB (.parsed
      (.obj [("repositories", Json.str "not-an-array")]))) "history" =
      some (Json.arr [] []) ∧
    readDB (.parsed (.obj [("repositories", Json.str "not-an-array")])) = defaultDBJson ∧
    jsGetField (readDB (.parsed
      (.obj [("repositories", Json.str "not-an-array"), ("extra", Json.num 1)]))) "extra" =
      some (Json.num 1) := by
  have h1 := C8_read_never_throws_normalizes.2.2.2 [("repositories", Json.str "not-an-array")]
  have h2 := C8_read_never_throws_normalizes.2.2.2
    [("repositories", Json.str "not-an-array"), ("extra", Json.num 1)]
  refine ⟨h1.1 rfl, h1.2.2.1 rfl, rfl, ?_⟩
  rw [h2.2.2.2.2 "extra" (by decide) (by decide)]
  rfl

/-! ## Claim C9 -/

lemma jsFindIndex_eq_none (p : α → Bool) (l : List α)
    (h : ∀ a ∈ l, p a = false) : jsFindIndex p l = none := by
  induction l with
  | nil => rfl
  | cons a as ih =>
    have ha := h a (by simp)
    simp [jsFindIndex, ha, ih (fun x hx => h x (by simp [hx]))]

lemma jsFindIndex_isSome (p : α → Bool) (l : List α)
    (h : ∃ a ∈ l, p a = true) : ∃ i, jsFindIndex p l = some i := by
  induction l with
  | nil => simp at h
  | cons a as ih =>
    by_cases ha : p a = true
    · exact ⟨0, by simp [jsFindIndex, ha]⟩
    · obtain ⟨x, hx, hpx⟩ := h
      rcases List.mem_cons.mp hx with rfl | hx'
      · exact absurd hpx ha
      · obtain ⟨i, hi⟩ := ih ⟨x, hx', hpx⟩
        exact ⟨i + 1, by simp [jsFindIndex, ha, hi]⟩

lemma jsFindIndex_spec (p : α → Bool) (l : List α) (i : Nat)
    (h : jsFindIndex p l = some i) :
    (∃ a, l[i]? = some a ∧ p a = true) ∧
    (∀ j a, j < i → l[j]? = some a → p a = false) := by
  induction l generalizing i with
  | nil => simp [jsFindIndex] at h
  | cons a as ih =>
    by_cases ha : p a = true
    · simp [jsFindIndex, ha] at h
      subst h
      exact ⟨⟨a, by simp, ha⟩, fun j b hj => by omega⟩
    · simp [jsFindIndex, ha] at h
      obtain ⟨i', hi', rfl⟩ := h
      obtain ⟨⟨b, hb, hpb⟩, hlt⟩ := ih i' hi'
      refine ⟨⟨b, by simpa using hb, hpb⟩, ?_⟩
      intro j c hj hc
      match j with
      | 0 =>
        simp at hc
        exact hc ▸ (Bool.not_eq_true _ ▸ ha)
      | j' + 1 =>
        exact hlt j' c (by omega) (by simpa using hc)

/-- C9: `getNewCommitsSinceLastChangelog` returns the `null` sentinel (not
zero) whenever no prior `lastCommitHash` is available (no history entry, a
`null` hash, or an empty-string hash, all falsy); otherwise, if some fetched
commit's hash starts with the recorded hash, the count is the index of the
first such commit in the newest-first list, and if none does, the count is
the full length of the fetched page. -/
theorem C9_new_commit_counts (last : Option LastRunInfo) (commits : List Commit) :
    (last = none → (getNewCommitsSinceLastChangelog last commits).newCommits = none) ∧
    (∀ info, last = some info → info.lastCommitHash = none →
      (getNewCommitsSinceLastChangelog last commits).newCommits = none) ∧
    (∀ info, last = some info → info.lastCommitHash = some "" →
      (getNewCommitsSinceLastChangelog last commits).newCommits = none) ∧
    (∀ info h, last = some info → info.lastCommitHash = some h → h ≠ "" →
      ((∃ c ∈ commits, strStartsWith c.sha h = true) →
        ∃ i, (getNewCommitsSinceLastChangelog last commits).newCommits = some i ∧
          (∃ c, commits[i]? = some c ∧ strStartsWith c.sha h = true) ∧
          (∀ j c, j < i → commits[j]? = some c → strStartsWith c.sha h = false)) ∧
      ((∀ c ∈ commits, strStartsWith c.sha h = false) →
        (getNewCommitsSinceLastChangelog last commits).newCommits =
          some commits.length)) := by
  refine ⟨?_, ?_, ?_, ?_⟩
  · rintro rfl
    rfl
  · rintro info rfl hnone
    simp [getNewCommitsSinceLastChangelog, hnone, noHashResult]
  · rintro info rfl hempty
    simp [getNewCommitsSinceLastChangelog, hempty, noHashResult]
  · rintro info h rfl hhash hne
    constructor
    · rintro ⟨c, hc, hpc⟩
      match hcs : commits with
      | [] => simp [hcs] at hc
      | c0 :: cs =>
        obtain ⟨i, hi⟩ :=
          jsFindIndex_isSome (fun x => strStartsWith x.sha h) (c0 :: cs) ⟨c, hc, hpc⟩
        obtain ⟨hfound, hbefore⟩ := jsFindIndex_spec _ _ _ hi
        refine ⟨i, ?_, hfound, hbefore⟩
        simp [getNewCommitsSinceLastChangelog, hhash, hne, hi]
    · intro hnoc
      match hcs : commits with
      | [] => simp [getNewCommitsSinceLastChangelog, hhash, hne]
      | c0 :: cs =>
        have hnone :=
          jsFindIndex_eq_none (fun x => strStartsWith x.sha h) (c0 :: cs)
            (fun x hx => hnoc x hx)
        simp [getNewCommitsSinceLastChangelog, hhash, hne, hnone]

/-- C9 witness: the theorem applied to a store hash `"abc"` and a two-commit
page whose second commit matches. -/
theorem C9_witness :
    ∃ i, (getNewCommitsSinceLastChangelog (some ⟨3, "d", some "abc"⟩)
        [⟨"xyz1", "m", "a", "d"⟩, ⟨"abc9", "m", "a", "d"⟩]).newCommits = some i ∧
      (∃ c, ([⟨"xyz1", "m", "a", "d"⟩, ⟨"abc9", "m", "a", "d"⟩] : List Commit)[i]? = some c ∧
        strStartsWith c.sha "abc" = true) ∧
      (∀ j c, j < i →
        ([⟨"xyz1", "m", "a", "d"⟩, ⟨"abc9", "m", "a", "d"⟩] : List Commit)[j]? = some c →
        strStartsWith c.sha "abc" = false) :=
  ((C9_new_commit_counts (some ⟨3, "d", some "abc"⟩)
      [⟨"xyz1", "m", "a", "d"⟩, ⟨"abc9", "m", "a", "d"⟩]).2.2.2 ⟨3, "d", some "abc"⟩ "abc"
    rfl rfl (by decide)).1 ⟨⟨"abc9", "m", "a", "d"⟩, by decide, by decide⟩

/-! ## Claim C7 -/

/-- C7: `getDaysSinceLastChangelog` returns `null` exactly when the history
holds no entry for the URL; otherwise its result is built from an entry for
that URL with maximal `generatedAt`, with `days` the ceiling of
`(now - generatedAt)` in whole days. -/
theorem C7_last_run_info (db : DB) (url : String) (now : Nat) :
    (getDaysSinceLastChangelog db url now = none ↔
      db.history.filter (fun x => x.repoUrl = url) = []) ∧
    (∀ r, getDaysSinceLastChangelog db url now = some r →
      ∃ e ∈ db.history, e.repoUrl = url ∧
        (∀ e2 ∈ db.history, e2.repoUrl = url → e2.generatedAt ≤ e.generatedAt) ∧
        r = ⟨ceilDiv ((now : Int) - (e.generatedAt : Int)) msPerDay, e.endDate,
          e.lastCommitHash⟩) := by
  have hperm : List.Perm (sortHistory (db.history.filter (fun x => x.repoUrl = url)))
      (db.history.filter (fun x => x.repoUrl = url)) :=
    List.perm_insertionSort histLe _
  have hsorted : List.Sorted histLe
      (sortHistory (db.history.filter (fun x => x.repoUrl = url))) :=
    List.sorted_insertionSort histLe _
  rcases hs : sortHistory (db.history.filter (fun x => x.repoUrl = url)) with _ | ⟨e, rest⟩
  · rw [hs] at hperm
    have hnil := hperm.symm.eq_nil
    constructor
    · constructor
      · intro _
        exact hnil
      · intro _
        unfold getDaysSinceLastChangelog
        rw [hs]
    · intro r hr
      unfold getDaysSinceLastChangelog at hr
      rw [hs] at hr
      exact absurd hr (by simp)
  · rw [hs] at hperm hsorted
    have hemem : e ∈ db.history.filter (fun x => x.repoUrl = url) :=
      hperm.mem_iff.mp (by simp)
    have hef := List.mem_filter.mp hemem
    have heurl : e.repoUrl = url := by simpa using hef.2
    constructor
    · constructor
      · intro h
        unfold getDaysSinceLastChangelog at h
        rw [hs] at h
        exact absurd h (by simp)
      · intro h
        rw [h] at hemem
        simp at hemem
    · intro r hr
      unfold getDaysSinceLastChangelog at hr
      rw [hs] at hr
      injection hr with hr'
      refine ⟨e, hef.1, heurl, ?_, hr'.symm⟩
      intro e2 he2 he2url
      have he2f : e2 ∈ db.history.filter (fun x => x.repoUrl = url) :=
        List.mem_filter.mpr ⟨he2, by simpa using he2url⟩
      have hmm := hperm.mem_iff.mpr he2f
      rcases List.mem_cons.mp hmm with rfl | hmem
      · exact Nat.le_refl _
      · exact List.rel_of_sorted_cons hsorted e2 hmem

/-- C7 witness: a history with two entries for `"u"` (and one for `"v"`);
the result is drawn from the maximal-`generatedAt` entry, one day after it. -/
theorem C7_witness :
    ∃ e ∈ (DB.mk [] [⟨"u", 1000, "s", "e", some "h"⟩, ⟨"u", 5000, "s2", "e2", some "h2"⟩,
        ⟨"v", 9000, "s3", "e3", none⟩]).history,
      e.repoUrl = "u" ∧
      (∀ e2 ∈ (DB.mk [] [⟨"u", 1000, "s", "e", some "h"⟩, ⟨"u", 5000, "s2", "e2", some "h2"⟩,
          ⟨"v", 9000, "s3", "e3", none⟩]).history,
        e2.repoUrl = "u" → e2.generatedAt ≤ e.generatedAt) ∧
      (⟨1, "e2", some "h2"⟩ : LastRunInfo) =
        ⟨ceilDiv ((86404000 : Int) - (e.generatedAt : Int)) msPerDay, e.endDate,
          e.lastCommitHash⟩ :=
  (C7_last_run_info
    (DB.mk [] [⟨"u", 1000, "s", "e", some "h"⟩, ⟨"u", 5000, "s2", "e2", some "h2"⟩,
      ⟨"v", 9000, "s3", "e3", none⟩]) "u" 86404000).2 ⟨1, "e2", some "h2"⟩ (by decide)

/-! ## Claims C2 and C3: the external renderer -/

lemma filter_filter_of_imp {α : Type} (p q : α → Bool)
    (himp : ∀ c, p c = true → q c = true) :
    ∀ l : List α, (l.filter q).filter p = l.filter p := by
  intro l
  induction l with
  | nil => rfl
  | cons c cs ih =>
    by_cases hq : q c = true
    · by_cases hp : p c = true
      · simp [List.filter_cons, hq, hp, ih]
      · simp [List.filter_cons, hq, hp, ih]
    · have hp : p c = false := by
        cases hpc : p c
        · rfl
        · exact absurd (himp c hpc) hq
      simp [List.filter_cons, hq, hp, ih]

lemma feat_imp_relevant : ∀ c, isFeat c = true → isUserRelevant c = true := by
  intro c h; simp [isUserRelevant, msgUserRelevant, isFeat] at h ⊢; simp [h]

lemma fix_imp_relevant : ∀ c, isFix c = true → isUserRelevant c = true := by
  intro c h; simp [isUserRelevant, msgUserRelevant, isFix] at h ⊢; simp [h]

lemma perf_imp_relevant : ∀ c, isPerf c = true → isUserRelevant c = true := by
  intro c h; simp [isUserRelevant, msgUserRelevant, isPerf] at h ⊢; simp [h]

lemma breaking_imp_relevant : ∀ c, isBreaking c = true → isUserRelevant c = true := by
  intro c h; simp [isUserRelevant, msgUserRelevant, isBreaking] at h ⊢; simp [h]

lemma relevant_imp_relevant : ∀ c, isUserRelevant c = true → isUserRelevant c = true :=
  fun _ h => h

/-- Collapsing the source's double filtering (`userRelevantCommits` then each
bucket) into the claim-shaped single filters. -/
lemma ext_eq_amended (repoName dateRange : String) (commits : List Commit) :
    generateExternalChangelog repoName commits dateRange =
      externalChangelogAmended repoName commits dateRange := by
  simp only [generateExternalChangelog, externalChangelogAmended]
  rw [filter_filter_of_imp _ _ feat_imp_relevant,
      filter_filter_of_imp _ _ fix_imp_relevant,
      filter_filter_of_imp _ _ perf_imp_relevant,
      filter_filter_of_imp _ _ breaking_imp_relevant]

/-- Commits matching none of the four buckets have no effect on the external
output: dropping them first changes nothing. -/
lemma ext_drop_irrelevant (repoName dateRange : String) (commits : List Commit) :
    generateExternalChangelog repoName commits dateRange =
      generateExternalChangelog repoName (commits.filter isUserRelevant) dateRange := by
  simp only [generateExternalChangelog]
  rw [filter_filter_of_imp _ _ relevant_imp_relevant]

lemma msg_dep (p : String → Bool) (f : String → String) :
    ∀ cs cs2 : List Commit, cs.map Commit.message = cs2.map Commit.message →
      concatMap (fun c => f c.message) (cs.filter (fun c => p c.message)) =
        concatMap (fun c => f c.message) (cs2.filter (fun c => p c.message)) ∧
      (cs.filter (fun c => p c.message)).length =
        (cs2.filter (fun c => p c.message)).length := by
  intro cs
  induction cs with
  | nil =>
    intro cs2 h
    cases cs2 with
    | nil => exact ⟨rfl, rfl⟩
    | cons d ds => simp at h
  | cons c cs ih =>
    intro cs2 h
    cases cs2 with
    | nil => simp at h
    | cons d ds =>
      simp only [List.map_cons, List.cons.injEq] at h
      obtain ⟨hmsg, htail⟩ := h
      obtain ⟨ih1, ih2⟩ := ih ds htail
      by_cases hp : p c.message = true
      · have hpd : p d.message = true := by rw [← hmsg]; exact hp
        simp [List.filter_cons, hp, hpd, concatMap, hmsg, ih1, ih2]
      · have hp' : p c.message = false := by
          cases hpc : p c.message
          · rfl
          · exact absurd hpc hp
        have hpd : p d.message = false := by rw [← hmsg]; exact hp'
        simp [List.filter_cons, hp', hpd, ih1, ih2]

lemma isFeat_eq : isFeat = fun c => msgStarts "feat" c.message := rfl

lemma isFix_eq : isFix = fun c => msgStarts "fix" c.message := rfl

lemma isPerf_eq : isPerf = fun c => msgStarts "perf" c.message := rfl

lemma isBreaking_eq : isBreaking = fun c => msgStarts "breaking" c.message := rfl

lemma renderExternalEntry_eq (kw : String) :
    renderExternalEntry kw = fun c => externalEntryOf kw c.message := rfl

/-- The external output is a function of the repo name, the date range and
the commit messages alone. -/
lemma ext_message_only (repoName dateRange : String) (cs cs2 : List Commit)
    (h : cs.map Commit.message = cs2.map Commit.message) :
    generateExternalChangelog repoName cs dateRange =
      generateExternalChangelog repoName cs2 dateRange := by
  rw [ext_eq_amended, ext_eq_amended]
  simp only [externalChangelogAmended, isFeat_eq, isFix_eq, isPerf_eq, isBreaking_eq,
    renderExternalEntry_eq]
  rw [(msg_dep (msgStarts "feat") (externalEntryOf "feat") cs cs2 h).1,
      (msg_dep (msgStarts "feat") (externalEntryOf "feat") cs cs2 h).2,
      (msg_dep (msgStarts "fix") (externalEntryOf "fix") cs cs2 h).1,
      (msg_dep (msgStarts "fix") (externalEntryOf "fix") cs cs2 h).2,
      (msg_dep (msgStarts "perf") (externalEntryOf "perf") cs cs2 h).1,
      (msg_dep (msgStarts "perf") (externalEntryOf "perf") cs cs2 h).2,
      (msg_dep (msgStarts "breaking") (externalEntryOf "breaking") cs cs2 h).1,
      (msg_dep (msgStarts "breaking") (externalEntryOf "breaking") cs cs2 h).2]

/-- C2 counterexample: the message `"feature: x"` starts with `feat`, so it
is bucketed as a feature, but its conventional-commit prefix is `feature:`,
which the code's `/^feat(\(..\))?:\s*/i` replace does not strip; the
claim-shaped rendering (generic prefix strip) therefore disagrees with the
code on this input. -/
theorem C2_counterexample :
    generateExternalChangelog "repo" [⟨"h1", "feature: x", "A", "d"⟩] "date" ≠
      externalChangelogClaim "repo" [⟨"h1", "feature: x", "A", "d"⟩] "date" := by
  decide

/-- C2 (amended): for every commit list, the external output equals the
claim-shaped rendering in which the four buckets are drawn directly from the
input by case-insensitive `feat`/`fix`/`perf`/`breaking` prefix tests, the
four sections appear in the fixed order (features, breaking, fixes,
performance) exactly when non-empty, and each entry strips only its own
bucket keyword prefix (`kw:` or `kw(scope):`, case-insensitive, plus trailing
whitespace), leaving other messages verbatim; moreover commits matching no
bucket have no effect on the output at all. -/
theorem C2_external_layout (repoName dateRange : String) (commits : List Commit)
    (hne : commits ≠ []) :
    generateExternalChangelog repoName commits dateRange =
      externalChangelogAmended repoName commits dateRange ∧
    generateExternalChangelog repoName commits dateRange =
      generateExternalChangelog repoName (commits.filter isUserRelevant) dateRange :=
  ⟨ext_eq_amended repoName dateRange commits, ext_drop_irrelevant repoName dateRange commits⟩

/-- C2 witness: the amended theorem at a two-commit list (one `feat`, one
`docs` commit that the external layout drops). -/
theorem C2_witness :
    ([⟨"h1", "feat: a", "A", "d"⟩, ⟨"h2", "docs: b", "B", "d"⟩] : List Commit) ≠ [] ∧
    generateExternalChangelog "repo"
      [⟨"h1", "feat: a", "A", "d"⟩, ⟨"h2", "docs: b", "B", "d"⟩] "date" =
      externalChangelogAmended "repo"
        [⟨"h1", "feat: a", "A", "d"⟩, ⟨"h2", "docs: b", "B", "d"⟩] "date" :=
  ⟨by decide,
    (C2_external_layout "repo" "date"
      [⟨"h1", "feat: a", "A", "d"⟩, ⟨"h2", "docs: b", "B", "d"⟩] (by decide)).1⟩

/-- C3 counterexample: a commit whose message itself quotes a hash prefix
makes the external output contain the 7-character prefix of that commit's
hash, so the literal "never contains" reading fails. -/
theorem C3_counterexample :
    List.IsInfix (takeChars 7 "abcdefg1234").data
      (generateExternalChangelog "repo"
        [⟨"abcdefg1234", "fix: abcdefg bug", "A", "2024"⟩] "d").data := by
  decide

/-- C3 (amended): the external renderer never reads the hash, author or date
fields — its output is a function of the repo name, the date range and the
commit messages alone; hence no hash prefix or author name ever reaches the
output except through the message text (or the repo name / date range)
itself. -/
theorem C3_external_no_provenance (repoName dateRange : String)
    (commits commits2 : List Commit)
    (h : commits.map Commit.message = commits2.map Commit.message) :
    generateExternalChangelog repoName commits dateRange =
      generateExternalChangelog repoName commits2 dateRange :=
  ext_message_only repoName dateRange commits commits2 h

/-- C3 witness: replacing hash, author and date wholesale leaves the external
output unchanged. -/
theorem C3_witness :
    generateExternalChangelog "repo"
      [⟨"abc1234xyz", "feat: x", "Alice", "2024-01-01T00:00:00Z"⟩,
       ⟨"def5678uvw", "docs: y", "Carol", "2024-01-02T00:00:00Z"⟩] "d" =
    generateExternalChangelog "repo"
      [⟨"zzz9999qqq", "feat: x", "Bob", "2099-09-09T00:00:00Z"⟩,
       ⟨"yyy8888ppp", "docs: y", "Dan", "2098-08-08T00:00:00Z"⟩] "d" :=
  C3_external_no_provenance "repo" "d" _ _ rfl

/-! ## Claims C6 and C10: the repository table -/

lemma updateFirst_decomp (l : List Repo) (u : String) (t : Nat)
    (h : l.any (fun r => r.url = u) = true) :
    ∃ l₁ r l₂, l = l₁ ++ r :: l₂ ∧ r.url = u ∧ (∀ x ∈ l₁, x.url ≠ u) ∧
      updateFirstRepo u t l = l₁ ++ { r with lastUsed := t } :: l₂ := by
  induction l with
  | nil => simp at h
  | cons r0 rest ih =>
    by_cases h0 : r0.url = u
    · exact ⟨[], r0, rest, rfl, h0, by simp, by simp [updateFirstRepo, h0]⟩
    · have hrest : rest.any (fun r => r.url = u) = true := by
        simp only [List.any_cons, h0] at h
        simpa [h0] using h
      obtain ⟨l₁, r, l₂, hdec, hurl, hnotin, hupd⟩ := ih hrest
      refine ⟨r0 :: l₁, r, l₂, by rw [List.cons_append, ← hdec], hurl, ?_, ?_⟩
      · intro x hx
        rcases List.mem_cons.mp hx with rfl | hx'
        · exact h0
        · exact hnotin x hx'
      · simp [updateFirstRepo, h0, hupd]

lemma lastSaveTime_append_ne (url u n : String) (t : Nat)
    (calls : List (String × String × Nat)) (h : u ≠ url) :
    lastSaveTime url (calls ++ [(u, n, t)]) = lastSaveTime url calls := by
  simp [lastSaveTime, List.filter_append, List.filter, h]

lemma lastSaveTime_append_eq (u n : String) (t : Nat)
    (calls : List (String × String × Nat)) :
    lastSaveTime u (calls ++ [(u, n, t)]) = some t := by
  simp [lastSaveTime, List.filter_append, List.filter]

lemma countP_update_eq (l₁ l₂ : List Repo) (r : Repo) (t : Nat) (p : Repo → Bool)
    (hp : p { r with lastUsed := t } = p r) :
    (l₁ ++ { r with lastUsed := t } :: l₂).countP p = (l₁ ++ r :: l₂).countP p := by
  simp [List.countP_append, List.countP_cons, hp]

lemma repoInv_step (calls : List (String × String × Nat)) (db : DB) (u n : String) (t : Nat)
    (hinv : RepoInv calls db.repositories) :
    RepoInv (calls ++ [(u, n, t)]) (saveRepository db u n t).repositories := by
  obtain ⟨hcount, hlast, _⟩ := hinv
  by_cases hfound : db.repositories.any (fun r => r.url = u) = true
  · have hrepos : (saveRepository db u n t).repositories =
        sortRepos (updateFirstRepo u t db.repositories) := by
      simp [saveRepository, hfound]
    obtain ⟨l₁, r, l₂, hdec, hurl, hnotin, hupd⟩ := updateFirst_decomp _ u t hfound
    have hperm : List.Perm (sortRepos (updateFirstRepo u t db.repositories))
        (updateFirstRepo u t db.repositories) := List.perm_insertionSort repoLe _
    have hmemr : r ∈ db.repositories := by rw [hdec]; simp
    have hcu : calls.any (fun c => c.1 = u) = true := by
      by_contra hfalse
      have h0 : db.repositories.countP (fun r => r.url = u) = 0 := by
        rw [hcount u]
        simp [hfalse]
      have := List.countP_eq_zero.mp h0 r hmemr
      simp [hurl] at this
    refine ⟨?_, ?_, ?_⟩
    · intro url
      rw [hrepos, hperm.countP_eq, hupd, countP_update_eq _ _ _ _ _ rfl, ← hdec, hcount url]
      by_cases hcall : calls.any (fun c => c.1 = url) = true
      · simp [List.any_append, hcall]
      · have hne : ¬ (u = url) := fun he => absurd (he ▸ hcu) hcall
        simp [List.any_append, hcall, hne]
    · intro x hx
      rw [hrepos] at hx
      have hx2 := hperm.mem_iff.mp hx
      rw [hupd] at hx2
      have hc1 : (l₁ ++ r :: l₂).countP (fun r => r.url = u) = 1 := by
        rw [← hdec, hcount u, if_pos hcu]
      have hl₂0 : ∀ x ∈ l₂, x.url ≠ u := by
        intro y hy hyu
        rw [List.countP_append, List.countP_cons] at hc1
        have hge : l₂.countP (fun r => r.url = u) ≥ 1 := by
          have : y ∈ l₂ := hy
          calc 1 = [y].countP (fun r => r.url = u) := by simp [hyu]
            _ ≤ l₂.countP (fun r => r.url = u) := by
                apply List.Sublist.countP_le
                simpa using List.singleton_sublist.mpr hy
        simp [hurl] at hc1
        omega
      rcases List.mem_append.mp hx2 with hx3 | hx3
      · have hxu : x.url ≠ u := hnotin x hx3
        rw [lastSaveTime_append_ne _ _ _ _ _ (fun he => hxu he.symm)]
        exact hlast x (by rw [hdec]; exact List.mem_append_left _ hx3)
      · rcases List.mem_cons.mp hx3 with rfl | hx4
        · show lastSaveTime ({ r with lastUsed := t }).url (calls ++ [(u, n, t)]) = some t
          have : ({ r with lastUsed := t }).url = u := hurl
          rw [this, lastSaveTime_append_eq]
        · have hxu : x.url ≠ u := hl₂0 x hx4
          rw [lastSaveTime_append_ne _ _ _ _ _ (fun he => hxu he.symm)]
          exact hlast x (by rw [hdec]; exact List.mem_append_right _ (List.mem_cons_of_mem _ hx4))
    · rw [hrepos]
      exact List.sorted_insertionSort repoLe _
  · have hrepos : (saveRepository db u n t).repositories =
        sortRepos (db.repositories ++ [⟨u, n, t⟩]) := by
      simp [saveRepository, hfound]
    have hperm : List.Perm (sortRepos (db.repositories ++ [⟨u, n, t⟩]))
        (db.repositories ++ [⟨u, n, t⟩]) := List.perm_insertionSort repoLe _
    have h0 : db.repositories.countP (fun r => r.url = u) = 0 := by
      apply List.countP_eq_zero.mpr
      intro a ha
      have := List.any_eq_false.mp (Bool.eq_false_iff.mpr hfound) a ha
      simpa using this
    have hcany : calls.any (fun c => c.1 = u) = false := by
      cases hc : calls.any (fun c => c.1 = u)
      · rfl
      · have := hcount u
        rw [hc, if_pos rfl] at this
        rw [h0] at this
        exact absurd this (by omega)
    refine ⟨?_, ?_, ?_⟩
    · intro url
      rw [hrepos, hperm.countP_eq, List.countP_append, hcount url]
      by_cases hu : u = url
      · subst hu
        have hd : decide (u = u) = true := by simp
        simp only [List.any_append, List.any_cons, List.any_nil, List.countP_cons,
          List.countP_nil, hcany, hd, Bool.or_false, Bool.false_or, if_true, if_false]
        simp
      · have hd : decide (u = url) = false := decide_eq_false hu
        simp only [List.any_append, List.any_cons, List.any_nil, List.countP_cons,
          List.countP_nil, hd, Bool.or_false]
        simp
    · intro x hx
      rw [hrepos] at hx
      have hx2 := hperm.mem_iff.mp hx
      rcases List.mem_append.mp hx2 with hx3 | hx3
      · have hxu : x.url ≠ u := by
          intro he
          have := List.countP_eq_zero.mp h0 x hx3
          simp [he] at this
        rw [lastSaveTime_append_ne _ _ _ _ _ (fun he => hxu he.symm)]
        exact hlast x hx3
      · have hx4 : x = ⟨u, n, t⟩ := by simpa using hx3
        subst hx4
        show lastSaveTime u (calls ++ [(u, n, t)]) = some t
        rw [lastSaveTime_append_eq]
    · rw [hrepos]
      exact List.sorted_insertionSort repoLe _

lemma applySaves_inv :
    ∀ (calls : List (String × String × Nat)) (db : DB) (pre : List (String × String × Nat)),
      RepoInv pre db.repositories →
      RepoInv (pre ++ calls)
        (calls.foldl (fun d c => saveRepository d c.1 c.2.1 c.2.2) db).repositories := by
  intro calls
  induction calls with
  | nil =>
    intro db pre h
    simpa using h
  | cons c cs ih =>
    intro db pre h
    have hstep := repoInv_step pre db c.1 c.2.1 c.2.2 h
    have hrec := ih (saveRepository db c.1 c.2.1 c.2.2) (pre ++ [c]) hstep
    simpa [List.append_assoc] using hrec

/-- C6: starting from an empty store, after any sequence of
`saveRepository` calls the repository table has exactly one record per URL
ever passed (and none for other URLs), each record's `lastUsed` is the time
of the most recent call for its URL, and the table is sorted by `lastUsed`
descending. -/
theorem C6_repo_store_invariants (calls : List (String × String × Nat)) :
    (∀ url, (applySaves calls).repositories.countP (fun r => r.url = url) =
      if calls.any (fun c => c.1 = url) then 1 else 0) ∧
    (∀ r ∈ (applySaves calls).repositories, lastSaveTime r.url calls = some r.lastUsed) ∧
    (applySaves calls).repositories.Sorted repoLe := by
  have h0 : RepoInv [] emptyDB.repositories := by
    refine ⟨?_, ?_, ?_⟩
    · intro url
      simp [emptyDB]
    · intro r hr
      simp [emptyDB] at hr
    · simp [emptyDB]
  have h := applySaves_inv calls emptyDB [] h0
  simpa [RepoInv, applySaves] using h

/-- C6 witness: three calls, the first URL saved twice; the resulting table
has one record per URL, the repeated URL carrying the later time. -/
theorem C6_witness :
    (applySaves [("u1", "n1", 10), ("u2", "n2", 5), ("u1", "zz", 20)]).repositories.countP
        (fun r => r.url = "u1") = 1 ∧
    lastSaveTime "u1" [("u1", "n1", 10), ("u2", "n2", 5), ("u1", "zz", 20)] = some 20 ∧
    (applySaves [("u1", "n1", 10), ("u2", "n2", 5), ("u1", "zz", 20)]).repositories.Sorted
      repoLe := by
  have h := C6_repo_store_invariants [("u1", "n1", 10), ("u2", "n2", 5), ("u1", "zz", 20)]
  refine ⟨?_, ?_, h.2.2⟩
  · rw [h.1 "u1"]
    decide
  · exact h.2.1 ⟨"u1", "n1", 20⟩ (by decide)

/-- C10: when the store already holds a record for `u`, `saveRepository`
leaves `history` untouched and permutes the repository table, changing
exactly the first record with URL `u` — and only its `lastUsed` field (its
`url` and `name` survive even though a possibly different `name` is passed);
every record before it (and every other record) keeps all its fields. -/
theorem C10_save_existing_frame (db : DB) (u n : String) (t : Nat)
    (h : db.repositories.any (fun r => r.url = u) = true) :
    ∃ l₁ r l₂, db.repositories = l₁ ++ r :: l₂ ∧ r.url = u ∧ (∀ x ∈ l₁, x.url ≠ u) ∧
      List.Perm (saveRepository db u n t).repositories
        (l₁ ++ { r with lastUsed := t } :: l₂) ∧
      (saveRepository db u n t).history = db.history := by
  obtain ⟨l₁, r, l₂, hdec, hurl, hnotin, hupd⟩ := updateFirst_decomp db.repositories u t h
  have hrepos : (saveRepository db u n t).repositories =
      sortRepos (updateFirstRepo u t db.repositories) := by
    simp [saveRepository, h]
  refine ⟨l₁, r, l₂, hdec, hurl, hnotin, ?_, rfl⟩
  rw [hrepos, hupd]
  exact List.perm_insertionSort repoLe _

/-- C10 witness: a two-record store; saving the first URL with a fresh name
only bumps that record's `lastUsed`. -/
theorem C10_witness :
    ∃ l₁ r l₂,
      (DB.mk [⟨"u", "n", 1⟩, ⟨"v", "m", 2⟩] []).repositories = l₁ ++ r :: l₂ ∧
      r.url = "u" ∧ (∀ x ∈ l₁, x.url ≠ "u") ∧
      List.Perm (saveRepository (DB.mk [⟨"u", "n", 1⟩, ⟨"v", "m", 2⟩] []) "u" "other" 50).repositories
        (l₁ ++ { r with lastUsed := 50 } :: l₂) ∧
      (saveRepository (DB.mk [⟨"u", "n", 1⟩, ⟨"v", "m", 2⟩] []) "u" "other" 50).history =
        (DB.mk [⟨"u", "n", 1⟩, ⟨"v", "m", 2⟩] []).history :=
  C10_save_existing_frame (DB.mk [⟨"u", "n", 1⟩, ⟨"v", "m", 2⟩] []) "u" "other" 50 (by decide)

/-! ## Claim C4: the internal renderer -/

lemma insertGroup_flatMap (acc : List (String × List Commit)) (ty : String) (c : Commit) :
    List.Perm ((insertGroup acc ty c).flatMap Prod.snd)
      ((acc.flatMap Prod.snd) ++ [c]) := by
  induction acc with
  | nil => simp [insertGroup]
  | cons g rest ih =>
    obtain ⟨k, cs⟩ := g
    by_cases hk : k = ty
    · simp only [insertGroup, if_pos hk, List.flatMap_cons]
      rw [List.append_assoc, List.append_assoc]
      exact List.Perm.append_left cs (by simpa using @List.perm_append_comm _ [c] _)
    · simp only [insertGroup, if_neg hk, List.flatMap_cons]
      rw [List.append_assoc]
      exact List.Perm.append_left cs (by simpa using ih)

lemma foldl_insertGroup_flatMap (commits : List Commit) :
    ∀ acc : List (String × List Commit),
      List.Perm ((commits.foldl (fun a c => insertGroup a (deriveType c.message) c)
          acc).flatMap Prod.snd)
        ((acc.flatMap Prod.snd) ++ commits) := by
  induction commits with
  | nil => intro acc; simp
  | cons c cs ih =>
    intro acc
    have h1 := ih (insertGroup acc (deriveType c.message) c)
    have h2 : List.Perm ((insertGroup acc (deriveType c.message) c).flatMap Prod.snd ++ cs)
        ((acc.flatMap Prod.snd ++ [c]) ++ cs) :=
      (insertGroup_flatMap acc (deriveType c.message) c).append_right cs
    have h3 := h1.trans h2
    simpa using h3

lemma orderKeysJS_perm (l : List (String × List Commit)) :
    List.Perm (orderKeysJS l) l := by
  have h1 : List.Perm (orderKeysJS l)
      (l.filter (fun g => isArrayIndexKey g.1) ++ l.filter (fun g => !isArrayIndexKey g.1)) :=
    (List.perm_insertionSort _ _).append_right _
  exact h1.trans (List.filter_append_perm _ l)

lemma groupCommitsByType_flatMap_perm (commits : List Commit) :
    List.Perm ((groupCommitsByType commits).flatMap Prod.snd) commits := by
  have h1 : List.Perm ((groupCommitsByType commits).flatMap Prod.snd)
      ((buildGroups commits).flatMap Prod.snd) :=
    (orderKeysJS_perm (buildGroups commits)).flatMap_right Prod.snd
  have h2 := foldl_insertGroup_flatMap commits []
  simpa using h1.trans (by simpa [buildGroups] using h2)

lemma insertGroup_keys_sub (acc : List (String × List Commit)) (ty : String) (c : Commit) :
    ∀ k, k ∈ (insertGroup acc ty c).map Prod.fst → k ∈ acc.map Prod.fst ∨ k = ty := by
  induction acc with
  | nil => intro k hk; simpa [insertGroup] using hk
  | cons g rest ih =>
    obtain ⟨k0, cs⟩ := g
    intro k hk
    by_cases hk0 : k0 = ty
    · simp only [insertGroup, if_pos hk0, List.map_cons] at hk
      exact Or.inl (by simpa using hk)
    · simp only [insertGroup, if_neg hk0, List.map_cons, List.mem_cons] at hk
      rcases hk with rfl | hk
      · exact Or.inl (by simp)
      · rcases ih k hk with h | h
        · exact Or.inl (by simp [h])
        · exact Or.inr h

lemma insertGroup_keys_nodup (acc : List (String × List Commit)) (ty : String) (c : Commit)
    (h : (acc.map Prod.fst).Nodup) : ((insertGroup acc ty c).map Prod.fst).Nodup := by
  induction acc with
  | nil => simp [insertGroup]
  | cons g rest ih =>
    obtain ⟨k0, cs⟩ := g
    simp only [List.map_cons, List.nodup_cons] at h
    by_cases hk0 : k0 = ty
    · simp only [insertGroup, if_pos hk0, List.map_cons, List.nodup_cons]
      exact h
    · simp only [insertGroup, if_neg hk0, List.map_cons, List.nodup_cons]
      refine ⟨?_, ih h.2⟩
      intro hmem
      rcases insertGroup_keys_sub rest ty c k0 hmem with hin | heq
      · exact h.1 hin
      · exact hk0 heq

lemma foldl_insertGroup_keys_nodup (commits : List Commit) :
    ∀ acc : List (String × List Commit), (acc.map Prod.fst).Nodup →
      (((commits.foldl (fun a c => insertGroup a (deriveType c.message) c)
        acc)).map Prod.fst).Nodup := by
  induction commits with
  | nil => intro acc h; simpa using h
  | cons c cs ih =>
    intro acc h
    exact ih _ (insertGroup_keys_nodup acc (deriveType c.message) c h)

lemma insertGroup_types (acc : List (String × List Commit)) (ty : String) (c : Commit)
    (hacc : ∀ g ∈ acc, ∀ x ∈ g.2, deriveType x.message = g.1)
    (hc : deriveType c.message = ty) :
    ∀ g ∈ insertGroup acc ty c, ∀ x ∈ g.2, deriveType x.message = g.1 := by
  induction acc with
  | nil =>
    intro g hg x hx
    simp only [insertGroup, List.mem_singleton] at hg
    subst hg
    simp only [List.mem_singleton] at hx
    subst hx
    exact hc
  | cons g0 rest ih =>
    obtain ⟨k0, cs⟩ := g0
    intro g hg x hx
    by_cases hk0 : k0 = ty
    · simp only [insertGroup, if_pos hk0, List.mem_cons] at hg
      rcases hg with rfl | hg
      · simp only at hx
        rcases List.mem_append.mp hx with hx | hx
        · exact hacc (k0, cs) (by simp) x hx
        · simp only [List.mem_singleton] at hx
          subst hx
          rw [hc, hk0]
      · exact hacc g (by simp [hg]) x hx
    · simp only [insertGroup, if_neg hk0, List.mem_cons] at hg
      rcases hg with rfl | hg
      · exact hacc (k0, cs) (by simp) x hx
      · exact ih (fun g2 hg2 => hacc g2 (by simp [hg2])) g hg x hx

lemma foldl_insertGroup_types (commits : List Commit) :
    ∀ acc : List (String × List Commit),
      (∀ g ∈ acc, ∀ x ∈ g.2, deriveType x.message = g.1) →
      ∀ g ∈ (commits.foldl (fun a c => insertGroup a (deriveType c.message) c) acc),
        ∀ x ∈ g.2, deriveType x.message = g.1 := by
  induction commits with
  | nil => intro acc h; simpa using h
  | cons c cs ih =>
    intro acc h
    exact ih _ (insertGroup_types acc (deriveType c.message) c h rfl)

lemma groupCommitsByType_keys_nodup (commits : List Commit) :
    ((groupCommitsByType commits).map Prod.fst).Nodup := by
  have h1 := foldl_insertGroup_keys_nodup commits [] (by simp)
  have hperm := (orderKeysJS_perm (buildGroups commits)).map Prod.fst
  exact hperm.symm.nodup (by simpa [buildGroups] using h1)

lemma groupCommitsByType_types (commits : List Commit) :
    ∀ g ∈ groupCommitsByType commits, ∀ x ∈ g.2, deriveType x.message = g.1 := by
  intro g hg
  have hmem : g ∈ buildGroups commits :=
    (orderKeysJS_perm (buildGroups commits)).mem_iff.mp hg
  exact foldl_insertGroup_types commits [] (by simp) g (by simpa [buildGroups] using hmem)

lemma concatMap_infix (f : α → String) (x : α) :
    ∀ l : List α, x ∈ l → List.IsInfix (f x).data (concatMap f l).data := by
  intro l
  induction l with
  | nil => intro h; simp at h
  | cons y ys ih =>
    intro h
    rcases List.mem_cons.mp h with rfl | h'
    · rw [concatMap, String.data_append]
      exact (List.prefix_append _ _).isInfix
    · rw [concatMap, String.data_append]
      exact (ih h').trans (List.suffix_append _ _).isInfix

/-- C4: the internal layout is grouped into one section per derived commit
type (group keys are distinct and every commit sits in the group of its own
derived type), the groups together hold exactly one entry per input commit
(their concatenation is a permutation of the input), and each commit's
rendered list entry — `- **<7-char hash>** <message> (<author>, <date>)` —
appears in the output. -/
theorem C4_internal_layout (repoName dateRange : String) (commits : List Commit)
    (hne : commits ≠ []) :
    List.Perm ((groupCommitsByType commits).flatMap Prod.snd) commits ∧
    ((groupCommitsByType commits).map Prod.fst).Nodup ∧
    (∀ g ∈ groupCommitsByType commits, ∀ c ∈ g.2, deriveType c.message = g.1) ∧
    (∀ c ∈ commits, List.IsInfix (renderInternalCommit c).data
      (generateInternalChangelog repoName commits dateRange).data) ∧
    (∀ c : Commit, renderInternalCommit c =
      "- **" ++ takeChars 7 c.sha ++ "** " ++ c.message ++ " (" ++ c.author ++ ", "
        ++ dateOnly c.date ++ ")\n") := by
  refine ⟨groupCommitsByType_flatMap_perm commits, groupCommitsByType_keys_nodup commits,
    groupCommitsByType_types commits, ?_, fun c => rfl⟩
  intro c hc
  have hmem : c ∈ (groupCommitsByType commits).flatMap Prod.snd :=
    (groupCommitsByType_flatMap_perm commits).mem_iff.mpr hc
  obtain ⟨g, hg, hcg⟩ := List.mem_flatMap.mp hmem
  have h1 : List.IsInfix (renderInternalCommit c).data
      (concatMap renderInternalCommit g.2).data :=
    concatMap_infix renderInternalCommit c g.2 hcg
  have h2 : List.IsInfix (concatMap renderInternalCommit g.2).data
      (renderTypeSection g).data := by
    show List.IsInfix _ ("## " ++ formatCommitType g.1 ++ "\n\n" ++
      concatMap renderInternalCommit g.2 ++ "\n").data
    simp only [String.data_append]
    exact List.infix_append _ _ _
  have h3 : List.IsInfix (renderTypeSection g).data
      (concatMap renderTypeSection (groupCommitsByType commits)).data :=
    concatMap_infix renderTypeSection g _ hg
  have h4 : List.IsInfix (concatMap renderTypeSection (groupCommitsByType commits)).data
      (generateInternalChangelog repoName commits dateRange).data := by
    show List.IsInfix _ ("# Changelog: " ++ repoName ++ "\n\n" ++ "**Date Range:** "
      ++ dateRange ++ "\n\n" ++ concatMap renderTypeSection (groupCommitsByType commits)).data
    simp only [String.data_append]
    exact (List.suffix_append _ _).isInfix
  exact ((h1.trans h2).trans h3).trans h4

/-- C4 witness: a two-commit list; the grouped entries are a permutation of
the input and the first commit's rendered entry appears in the output. -/
theorem C4_witness :
    List.Perm ((groupCommitsByType
      [⟨"abc1234fff", "feat: add login", "A", "2024-01-02T10:00:00Z"⟩,
       ⟨"def5678fff", "docs: readme", "B", "2024-01-03T00:00:00Z"⟩]).flatMap Prod.snd)
      [⟨"abc1234fff", "feat: add login", "A", "2024-01-02T10:00:00Z"⟩,
       ⟨"def5678fff", "docs: readme", "B", "2024-01-03T00:00:00Z"⟩] ∧
    List.IsInfix
      (renderInternalCommit ⟨"abc1234fff", "feat: add login", "A", "2024-01-02T10:00:00Z"⟩).data
      (generateInternalChangelog "repo"
        [⟨"abc1234fff", "feat: add login", "A", "2024-01-02T10:00:00Z"⟩,
         ⟨"def5678fff", "docs: readme", "B", "2024-01-03T00:00:00Z"⟩] "dr").data := by
  have h := C4_internal_layout "repo" "dr"
    [⟨"abc1234fff", "feat: add login", "A", "2024-01-02T10:00:00Z"⟩,
     ⟨"def5678fff", "docs: readme", "B", "2024-01-03T00:00:00Z"⟩] (by decide)
  exact ⟨h.1, h.2.2.2.1 _ (by decide)⟩

end ChangelogCLI
